import Mathlib

/-!
Verification of the Latin-matching constructor and factorization utilities of
the `erdos_983_prime_divisibility` scripts.

The definitions below are shallow embeddings of the Python functions in
`constraint_solver.py`, `erdos983_lib.py` and `improved_solver.py`.
Python lists become `List Nat`, Python's `Optional` becomes `Option`,
the mutable backtracking state (the `assignment` array, the `used_pairs`
set and the `right_deg` counter list) is threaded functionally: because the
Python code undoes every mutation on backtrack, its search is equivalent to
a pure depth-first search that passes the state to recursive calls.
-/

/-- Embedding of the per-left-vertex candidate list construction
`valid[i] = [j for j, q in enumerate(right) if p * q <= n]`
(`constraint_solver.py` lines 67-72, `erdos983_lib.py` line 189):
the right indices `j` whose product with `p` is at most `n`, in ascending
order. -/
def validNeighbors (p : Nat) (right : List Nat) (n : Nat) : List Nat :=
  (List.range right.length).filter (fun j => p * right.getD j 0 ≤ n)

/-- Enumeration order of the double loop
`for idx1 in range(len(neighbors)): for idx2 in range(idx1+1, ...)`
(`constraint_solver.py` lines 92-94): the head is paired with every later
element in order, then the tail is enumerated recursively. -/
def pairsOf : List Nat → List (Nat × Nat)
  | [] => []
  | x :: xs => xs.map (fun y => (x, y)) ++ pairsOf xs

/-- Embedding of `pair = (min(j1, j2), max(j1, j2))`
(`constraint_solver.py` line 95). -/
def normPair (pr : Nat × Nat) : Nat × Nat := (min pr.1 pr.2, max pr.1 pr.2)

/-- Embedding of `right_deg[j] += 1` on the Python degree list
(`constraint_solver.py` lines 107-108). -/
def bump (deg : List Nat) (j : Nat) : List Nat := deg.set j (deg.getD j 0 + 1)

/-- Inner loop body of `backtrack` (`constraint_solver.py` lines 92-116):
tries each candidate pair in order, skipping pairs already in `used` and
pairs that would push a right vertex above degree 2, and otherwise calls
the continuation `recur` (the recursive `backtrack(i+1)`) on the extended
state; the first success is returned, mirroring the early `return True`. -/
def tryPairs (recur : List (Nat × Nat) → List Nat → Option (List (Nat × Nat)))
    (used : List (Nat × Nat)) (deg : List Nat) :
    List (Nat × Nat) → Option (List (Nat × Nat))
  | [] => none
  | pr :: rest =>
    if normPair pr ∈ used ∨ 2 ≤ deg.getD pr.1 0 ∨ 2 ≤ deg.getD pr.2 0 then
      tryPairs recur used deg rest
    else
      match recur (normPair pr :: used) (bump (bump deg pr.1) pr.2) with
      | some ps => some (pr :: ps)
      | none => tryPairs recur used deg rest

/-- Embedding of the recursive `backtrack(i)` (`constraint_solver.py`
lines 85-118).  `rem` is the number of left vertices still to assign
(`k - i`), so `rem = 0` is exactly the Python guard `i == k`, where the
final check `all(d == 2 for d in right_deg)` runs.  On success the list of
assigned index pairs for vertices `i, i+1, ..., k-1` is returned (the
Python `assignment` array restricted to those positions). -/
def bt (valid : List (List Nat)) :
    Nat → Nat → List (Nat × Nat) → List Nat → Option (List (Nat × Nat))
  | 0, _, _, deg => if deg.all (fun d => d = 2) then some [] else none
  | rem + 1, i, used, deg =>
      tryPairs (fun u d => bt valid rem (i + 1) u d) used deg
        (pairsOf (valid.getD i []))

/-- Embedding of the edge-list construction on success
(`constraint_solver.py` lines 120-126): for each left index `i` with
assigned pair `(j1, j2)` emit `(left[i], right[j1])` and
`(left[i], right[j2])`.  The search always returns one pair per left
vertex, so zipping `left` with the assignment list covers every index. -/
def toEdges (left right : List Nat) (ps : List (Nat × Nat)) : List (Nat × Nat) :=
  (left.zip ps).flatMap
    (fun e => [(e.1, right.getD e.2.1 0), (e.1, right.getD e.2.2 0)])

/-- Common core of the two `find_latin_matching` variants: build the
candidate lists, fail if some left vertex has fewer than two candidates
(`constraint_solver.py` lines 74-77 check this in a second loop over
`range(k)`, `erdos983_lib.py` lines 190-192 check it inside the building
loop with an early `return None`; for this pure computation both are
`none` exactly when some candidate list is short), then run the
backtracking search from vertex 0 with empty used-pair set and all right
degrees 0, and convert a successful assignment to edges. -/
def latinSearch (left right : List Nat) (n : Nat) : Option (List (Nat × Nat)) :=
  let k := left.length
  let valid := left.map (fun p => validNeighbors p right n)
  if valid.all (fun v => 2 ≤ v.length) then
    match bt valid k 0 [] (List.replicate k 0) with
    | some ps => some (toEdges left right ps)
    | none => none
  else none

namespace constraint_solver

/-- Embedding of `find_latin_matching` from `constraint_solver.py`
(lines 50-129): `None` on a length mismatch, the empty edge list when
`k == 0`, otherwise the candidate check and backtracking search of
`latinSearch`. -/
def find_latin_matching (left right : List Nat) (n : Nat) :
    Option (List (Nat × Nat)) :=
  if left.length ≠ right.length then none
  else if left.length = 0 then some []
  else latinSearch left right n

end constraint_solver

namespace erdos983_lib

/-- Embedding of `find_latin_matching` from `erdos983_lib.py`
(lines 165-239): `None` when the lengths differ or `k < 2`
(`if k != len(right) or k < 2: return None`), otherwise the same body as
the `constraint_solver.py` variant (the remaining source lines are
identical up to the local variable name `right_degree`). -/
def find_latin_matching (left right : List Nat) (n : Nat) :
    Option (List (Nat × Nat)) :=
  if left.length ≠ right.length ∨ left.length < 2 then none
  else latinSearch left right n

end erdos983_lib

/-- Inner `while temp % p == 0: temp //= p` loop of `prime_factorization`
(`erdos983_lib.py` lines 81-82), written with an explicit fuel argument so
that the definition is structurally recursive; `stripAll` below supplies
fuel `temp`, which is enough because each division strictly decreases
`temp`.  The guards `1 < p` and `0 < temp` are exactly the conditions
under which the Python loop terminates. -/
def stripAllFuel (p : Nat) : Nat → Nat → Nat
  | 0, temp => temp
  | fuel + 1, temp =>
      if 1 < p ∧ temp % p = 0 ∧ 0 < temp then stripAllFuel p fuel (temp / p)
      else temp

/-- Divides all powers of `p` out of `temp`: the inner `while` loop of
`prime_factorization` (`erdos983_lib.py` lines 81-82). -/
def stripAll (p temp : Nat) : Nat := stripAllFuel p temp temp

/-- Outer loop of `prime_factorization` (`erdos983_lib.py` lines 77-83):
walk the prime list, break as soon as `p * p > temp`, and when `p`
divides `temp` record `p` and strip all its powers.  Returns the collected
factors together with the remaining cofactor. -/
def factorsAux (acc : List Nat) (temp : Nat) : List Nat → List Nat × Nat
  | [] => (acc, temp)
  | p :: rest =>
      if temp < p * p then (acc, temp)
      else if temp % p = 0 then factorsAux (acc ++ [p]) (stripAll p temp) rest
      else factorsAux acc temp rest

namespace erdos983_lib

/-- Embedding of `prime_factorization` from `erdos983_lib.py`
(lines 63-87): empty set for `n ≤ 1`, otherwise trial division by the
given list with the final `if temp > 1: factors.add(temp)` step.  The
Python function returns a `set`, embedded as a `Finset Nat`. -/
def prime_factorization (n : Nat) (primes : List Nat) : Finset Nat :=
  if n ≤ 1 then ∅
  else
    match factorsAux [] n primes with
    | (f, temp) => if 1 < temp then (f ++ [temp]).toFinset else f.toFinset

end erdos983_lib

namespace constraint_solver

/-- Embedding of `factors` from `constraint_solver.py` (lines 33-47); its
body is line-for-line identical to `prime_factorization` in
`erdos983_lib.py`, so it is defined as the same function. -/
def factors (n : Nat) (primes : List Nat) : Finset Nat :=
  erdos983_lib.prime_factorization n primes

end constraint_solver

/-- Lexicographic (ascending) order on index pairs; the order in which the
nested loops of `backtrack` enumerate candidate pairs. -/
def pairLex (a b : Nat × Nat) : Prop := a.1 < b.1 ∨ (a.1 = b.1 ∧ a.2 < b.2)

/-- Accounting helper used by the proofs only: the right-degree list after
performing the two increments of every pair in `ps`. -/
def applyPairs (deg : List Nat) (ps : List (Nat × Nat)) : List Nat :=
  ps.foldl (fun d pr => bump (bump d pr.1) pr.2) deg

/-- Accounting helper used by the proofs only: the multiset of right
indices touched by the pairs of `ps`, as a flat list. -/
def idxList (ps : List (Nat × Nat)) : List Nat :=
  ps.flatMap (fun pr => [pr.1, pr.2])

/-- The number of left indices `i` whose product with `right[j]` is within
the bound; the mirror image of `validNeighbors` for a right vertex. -/
def leftPartners (left right : List Nat) (n j : Nat) : List Nat :=
  (List.range left.length).filter (fun i => left.getD i 0 * right.getD j 0 ≤ n)

theorem mem_validNeighbors {p n j : Nat} {right : List Nat} :
    j ∈ validNeighbors p right n ↔ j < right.length ∧ p * right.getD j 0 ≤ n := by
  simp [validNeighbors, List.mem_filter, List.mem_range]

theorem validNeighbors_pairwise (p : Nat) (right : List Nat) (n : Nat) :
    (validNeighbors p right n).Pairwise (· < ·) :=
  List.Pairwise.filter _ (List.pairwise_lt_range _)

theorem mem_pairsOf {pr : Nat × Nat} :
    ∀ {l : List Nat}, pr ∈ pairsOf l → pr.1 ∈ l ∧ pr.2 ∈ l := by
  intro l
  induction l with
  | nil => simp [pairsOf]
  | cons x xs ih =>
      intro h
      simp only [pairsOf, List.mem_append, List.mem_map] at h
      rcases h with ⟨y, hy, hpr⟩ | h
      · subst hpr; exact ⟨List.mem_cons_self x xs, List.mem_cons_of_mem x hy⟩
      · exact ⟨List.mem_cons_of_mem x (ih h).1, List.mem_cons_of_mem x (ih h).2⟩

theorem mem_pairsOf_lt {l : List Nat} (hl : l.Pairwise (· < ·)) {pr : Nat × Nat}
    (h : pr ∈ pairsOf l) : pr.1 < pr.2 := by
  induction l with
  | nil => simp [pairsOf] at h
  | cons x xs ih =>
      simp only [pairsOf, List.mem_append, List.mem_map] at h
      rcases h with ⟨y, hy, hpr⟩ | h
      · subst hpr; exact (List.pairwise_cons.mp hl).1 y hy
      · exact ih (List.pairwise_cons.mp hl).2 h

theorem pairsOf_pairwise {l : List Nat} (hl : l.Pairwise (· < ·)) :
    (pairsOf l).Pairwise pairLex := by
  induction l with
  | nil => simp [pairsOf]
  | cons x xs ih =>
      rw [List.pairwise_cons] at hl
      refine List.pairwise_append.mpr ⟨?_, ih hl.2, ?_⟩
      · refine List.pairwise_map.mpr ?_
        refine List.Pairwise.imp ?_ hl.2
        intro a b hab
        exact Or.inr ⟨rfl, hab⟩
      · intro a ha b hb
        rcases List.mem_map.mp ha with ⟨y, _, hy⟩
        subst hy
        exact Or.inl (hl.1 b.1 (mem_pairsOf hb).1)

theorem length_bump (deg : List Nat) (j : Nat) : (bump deg j).length = deg.length := by
  simp [bump]

theorem getD_bump_self {deg : List Nat} {j : Nat} (h : j < deg.length) :
    (bump deg j).getD j 0 = deg.getD j 0 + 1 := by
  simp [bump, List.getD, List.getElem?_set_self, h]

theorem getD_bump_ne {deg : List Nat} {j j' : Nat} (h : j ≠ j') :
    (bump deg j).getD j' 0 = deg.getD j' 0 := by
  simp [bump, List.getD, List.getElem?_set_ne h]

theorem getD_bump {deg : List Nat} {j' : Nat} (h : j' < deg.length) (j : Nat) :
    (bump deg j').getD j 0 = deg.getD j 0 + if j = j' then 1 else 0 := by
  by_cases hj : j = j'
  · subst hj; rw [getD_bump_self h]; simp
  · rw [getD_bump_ne (Ne.symm hj), if_neg hj]
    simp

theorem applyPairs_length (ps : List (Nat × Nat)) :
    ∀ deg : List Nat, (applyPairs deg ps).length = deg.length := by
  induction ps with
  | nil => intro deg; rfl
  | cons pr ps ih =>
      intro deg
      show (applyPairs (bump (bump deg pr.1) pr.2) ps).length = _
      rw [ih, length_bump, length_bump]

theorem getD_applyPairs (ps : List (Nat × Nat)) :
    ∀ deg : List Nat, (∀ pr ∈ ps, pr.1 < deg.length ∧ pr.2 < deg.length) →
      ∀ j, (applyPairs deg ps).getD j 0 = deg.getD j 0 + (idxList ps).count j := by
  induction ps with
  | nil => intro deg _ j; simp [applyPairs, idxList]
  | cons pr ps ih =>
      intro deg hb j
      have h1 : pr.1 < deg.length := (hb pr (List.mem_cons_self pr ps)).1
      have h2 : pr.2 < (bump deg pr.1).length := by
        rw [length_bump]; exact (hb pr (List.mem_cons_self pr ps)).2
      have hb' : ∀ q ∈ ps, q.1 < (bump (bump deg pr.1) pr.2).length ∧
          q.2 < (bump (bump deg pr.1) pr.2).length := by
        intro q hq
        rw [length_bump, length_bump]
        exact hb q (List.mem_cons_of_mem pr hq)
      show (applyPairs (bump (bump deg pr.1) pr.2) ps).getD j 0 = _
      rw [ih _ hb' j, getD_bump h2 j, getD_bump h1 j]
      have hsplit : idxList (pr :: ps) = pr.1 :: pr.2 :: idxList ps := by
        simp [idxList]
      rw [hsplit, List.count_cons, List.count_cons]
      simp only [beq_iff_eq]
      split_ifs <;> omega

theorem tryPairs_eq_some
    {recur : List (Nat × Nat) → List Nat → Option (List (Nat × Nat))}
    {used : List (Nat × Nat)} {deg : List Nat} {ps : List (Nat × Nat)} :
    ∀ {cs : List (Nat × Nat)}, tryPairs recur used deg cs = some ps →
    ∃ pr rest, pr ∈ cs ∧ ps = pr :: rest ∧ normPair pr ∉ used ∧
      deg.getD pr.1 0 < 2 ∧ deg.getD pr.2 0 < 2 ∧
      recur (normPair pr :: used) (bump (bump deg pr.1) pr.2) = some rest := by
  intro cs
  induction cs with
  | nil => intro h; simp [tryPairs] at h
  | cons pr cs ih =>
      intro h
      rw [tryPairs] at h
      by_cases hc : normPair pr ∈ used ∨ 2 ≤ deg.getD pr.1 0 ∨ 2 ≤ deg.getD pr.2 0
      · rw [if_pos hc] at h
        obtain ⟨pr', rest, hmem, hps, hnu, hd1, hd2, hrec⟩ := ih h
        exact ⟨pr', rest, List.mem_cons_of_mem pr hmem, hps, hnu, hd1, hd2, hrec⟩
      · rw [if_neg hc] at h
        push_neg at hc
        obtain ⟨hnu, hd1, hd2⟩ := hc
        cases hrec : recur (normPair pr :: used) (bump (bump deg pr.1) pr.2) with
        | none =>
            rw [hrec] at h
            obtain ⟨pr', rest, hmem, hps, hnu', hd1', hd2', hrec'⟩ := ih h
            exact ⟨pr', rest, List.mem_cons_of_mem pr hmem, hps, hnu', hd1', hd2', hrec'⟩
        | some rest =>
            rw [hrec] at h
            refine ⟨pr, rest, List.mem_cons_self pr cs, ?_, hnu, hd1, hd2, hrec⟩
            exact (Option.some_inj.mp h).symm

theorem bt_spec {valid : List (List Nat)} :
    ∀ {rem i : Nat} {used : List (Nat × Nat)} {deg : List Nat} {ps : List (Nat × Nat)},
      bt valid rem i used deg = some ps →
      ps.length = rem ∧
      (∀ t (ht : t < ps.length), ps.get ⟨t, ht⟩ ∈ pairsOf (valid.getD (i + t) [])) ∧
      (ps.map normPair).Nodup ∧
      (∀ pr ∈ ps, normPair pr ∉ used) ∧
      (applyPairs deg ps).all (fun d => d = 2) = true := by
  intro rem
  induction rem with
  | zero =>
      intro i used deg ps h
      rw [bt] at h
      by_cases hall : deg.all (fun d => d = 2) = true
      · rw [if_pos hall] at h
        obtain rfl : ([] : List (Nat × Nat)) = ps := Option.some_inj.mp h
        refine ⟨rfl, ?_, List.nodup_nil, ?_, hall⟩
        · intro t ht; simp at ht
        · intro pr hpr; simp at hpr
      · rw [if_neg hall] at h; simp at h
  | succ rem ih =>
      intro i used deg ps h
      rw [bt] at h
      obtain ⟨pr, rest, hmem, rfl, hnu, hd1, hd2, hrec⟩ := tryPairs_eq_some h
      obtain ⟨hlen, hget, hnodup, hused, hall⟩ := ih hrec
      refine ⟨by simp [hlen], ?_, ?_, ?_, ?_⟩
      · intro t ht
        cases t with
        | zero => simpa using hmem
        | succ t =>
            have ht' : t < rest.length := by simpa using ht
            have := hget t ht'
            have harith : i + 1 + t = i + (t + 1) := by omega
            rw [harith] at this
            simpa using this
      · rw [List.map_cons, List.nodup_cons]
        refine ⟨?_, hnodup⟩
        intro hmem'
        rcases List.mem_map.mp hmem' with ⟨pr', hpr', heq⟩
        exact hused pr' hpr' (heq ▸ List.mem_cons_self _ _)
      · intro q hq
        rcases List.mem_cons.mp hq with rfl | hq'
        · exact hnu
        · intro hin
          exact hused q hq' (List.mem_cons_of_mem _ hin)
      · exact hall

theorem valid_getD {left right : List Nat} {n t : Nat} (ht : t < left.length) :
    (left.map (fun p => validNeighbors p right n)).getD t []
      = validNeighbors (left.getD t 0) right n := by
  rw [List.getD_eq_getElem _ _ (by simpa using ht), List.getD_eq_getElem _ _ ht]
  simp

theorem latinSearch_eq_some {left right : List Nat} {n : Nat} {es : List (Nat × Nat)}
    (h : latinSearch left right n = some es) :
    ∃ ps, bt (left.map (fun p => validNeighbors p right n)) left.length 0 []
        (List.replicate left.length 0) = some ps ∧ es = toEdges left right ps := by
  unfold latinSearch at h
  by_cases hall : (left.map (fun p => validNeighbors p right n)).all
      (fun v => 2 ≤ v.length) = true
  · rw [if_pos hall] at h
    cases hbt : bt (left.map (fun p => validNeighbors p right n)) left.length 0 []
        (List.replicate left.length 0) with
    | none => rw [hbt] at h; simp at h
    | some ps =>
        rw [hbt] at h
        exact ⟨ps, rfl, (Option.some_inj.mp h).symm⟩
  · rw [if_neg hall] at h; simp at h

/-- Inversion for the `constraint_solver.py` entry point: a successful call
has equal input lengths and is either the trivial empty case or a
successful core search. -/
theorem find_latin_matching_eq_some {left right : List Nat} {n : Nat}
    {es : List (Nat × Nat)}
    (h : constraint_solver.find_latin_matching left right n = some es) :
    left.length = right.length ∧
    ((left.length = 0 ∧ es = []) ∨ latinSearch left right n = some es) := by
  unfold constraint_solver.find_latin_matching at h
  by_cases h1 : left.length ≠ right.length
  · rw [if_pos h1] at h; simp at h
  · rw [if_neg h1] at h
    push_neg at h1
    by_cases h2 : left.length = 0
    · rw [if_pos h2] at h
      exact ⟨h1, Or.inl ⟨h2, (Option.some_inj.mp h).symm⟩⟩
    · rw [if_neg h2] at h
      exact ⟨h1, Or.inr h⟩

/-- Consolidated invariants of a successful backtracking search, phrased
for the top-level call made by `latinSearch`. -/
theorem latin_assignment_facts {left right : List Nat} {n : Nat}
    {ps : List (Nat × Nat)}
    (hlen : left.length = right.length)
    (hbt : bt (left.map (fun p => validNeighbors p right n)) left.length 0 []
        (List.replicate left.length 0) = some ps) :
    ps.length = left.length ∧
    (∀ t (ht : t < ps.length),
        ps.get ⟨t, ht⟩ ∈ pairsOf (validNeighbors (left.getD t 0) right n)) ∧
    (ps.map normPair).Nodup ∧
    (∀ pr ∈ ps, pr.1 < right.length ∧ pr.2 < right.length ∧ pr.1 < pr.2) ∧
    (∀ j, j < left.length → (idxList ps).count j = 2) := by
  obtain ⟨hlen', hget, hnodup, _, hall⟩ := bt_spec hbt
  have hlenps : ps.length = left.length := hlen'
  have hget' : ∀ t (ht : t < ps.length),
      ps.get ⟨t, ht⟩ ∈ pairsOf (validNeighbors (left.getD t 0) right n) := by
    intro t ht
    have ht' : t < left.length := hlenps ▸ ht
    have := hget t ht
    rwa [Nat.zero_add, valid_getD ht'] at this
  have hcomp : ∀ pr ∈ ps, pr.1 < right.length ∧ pr.2 < right.length ∧ pr.1 < pr.2 := by
    intro pr hpr
    obtain ⟨t, rfl⟩ := List.mem_iff_get.mp hpr
    have hp := hget' t.1 t.2
    have h1 := (mem_validNeighbors.mp (mem_pairsOf hp).1).1
    have h2 := (mem_validNeighbors.mp (mem_pairsOf hp).2).1
    exact ⟨h1, h2, mem_pairsOf_lt (validNeighbors_pairwise _ _ _) hp⟩
  refine ⟨hlenps, hget', hnodup, hcomp, ?_⟩
  intro j hj
  have hbound : ∀ pr ∈ ps, pr.1 < (List.replicate left.length (0 : Nat)).length ∧
      pr.2 < (List.replicate left.length (0 : Nat)).length := by
    intro pr hpr
    rw [List.length_replicate]
    exact ⟨hlen ▸ (hcomp pr hpr).1, hlen ▸ (hcomp pr hpr).2.1⟩
  have hcount := getD_applyPairs ps (List.replicate left.length 0) hbound j
  have hzero : (List.replicate left.length (0 : Nat)).getD j 0 = 0 := by
    simp [List.getD]
  rw [hzero, Nat.zero_add] at hcount
  have hjlt : j < (applyPairs (List.replicate left.length 0) ps).length := by
    rw [applyPairs_length, List.length_replicate]; exact hj
  have hmemel : (applyPairs (List.replicate left.length 0) ps).getD j 0
      ∈ applyPairs (List.replicate left.length 0) ps := by
    rw [List.getD_eq_getElem _ _ hjlt]
    exact List.getElem_mem hjlt
  have hmem2 : (applyPairs (List.replicate left.length 0) ps).getD j 0 = 2 := by
    have := List.all_eq_true.mp hall _ hmemel
    simpa using this
  rw [hmem2] at hcount
  exact hcount.symm

theorem toEdges_cons (p : Nat) (left right : List Nat) (pr : Nat × Nat)
    (ps : List (Nat × Nat)) :
    toEdges (p :: left) right (pr :: ps)
      = (p, right.getD pr.1 0) :: (p, right.getD pr.2 0) :: toEdges left right ps := by
  simp [toEdges]

theorem toEdges_length (right : List Nat) :
    ∀ (left : List Nat) (ps : List (Nat × Nat)), ps.length = left.length →
      (toEdges left right ps).length = 2 * left.length := by
  intro left
  induction left with
  | nil => intro ps h; simp [toEdges]
  | cons p left ih =>
      intro ps h
      cases ps with
      | nil => simp at h
      | cons pr ps =>
          rw [toEdges_cons]
          simp only [List.length_cons] at h ⊢
          rw [ih ps (by omega)]
          omega

theorem count_fst_toEdges (right : List Nat) (p : Nat) :
    ∀ (left : List Nat) (ps : List (Nat × Nat)), ps.length = left.length →
      ((toEdges left right ps).map Prod.fst).count p = 2 * left.count p := by
  intro left
  induction left with
  | nil => intro ps h; simp [toEdges]
  | cons p' left ih =>
      intro ps h
      cases ps with
      | nil => simp at h
      | cons pr ps =>
          rw [toEdges_cons]
          simp only [List.length_cons] at h
          simp only [List.map_cons, List.count_cons, ih ps (by omega), beq_iff_eq]
          split_ifs <;> omega

theorem map_snd_toEdges (right : List Nat) :
    ∀ (left : List Nat) (ps : List (Nat × Nat)), ps.length = left.length →
      (toEdges left right ps).map Prod.snd
        = (idxList ps).map (fun j => right.getD j 0) := by
  intro left
  induction left with
  | nil =>
      intro ps h
      have : ps = [] := List.length_eq_zero.mp (by simpa using h)
      subst this
      simp [toEdges, idxList]
  | cons p' left ih =>
      intro ps h
      cases ps with
      | nil => simp at h
      | cons pr ps =>
          rw [toEdges_cons]
          simp only [List.length_cons] at h
          have : idxList (pr :: ps) = pr.1 :: pr.2 :: idxList ps := by simp [idxList]
          rw [this]
          simp only [List.map_cons, ih ps (by omega)]

theorem mem_toEdges {right : List Nat} {e : Nat × Nat} :
    ∀ {left : List Nat} {ps : List (Nat × Nat)}, e ∈ toEdges left right ps →
      ∃ (t : Nat) (h1 : t < left.length) (h2 : t < ps.length),
        e = (left.get ⟨t, h1⟩, right.getD (ps.get ⟨t, h2⟩).1 0) ∨
        e = (left.get ⟨t, h1⟩, right.getD (ps.get ⟨t, h2⟩).2 0) := by
  intro left
  induction left with
  | nil => intro ps h; simp [toEdges] at h
  | cons p' left ih =>
      intro ps h
      cases ps with
      | nil => simp [toEdges] at h
      | cons pr ps =>
          rw [toEdges_cons] at h
          rcases List.mem_cons.mp h with rfl | h
          · exact ⟨0, by simp, by simp, Or.inl rfl⟩
          rcases List.mem_cons.mp h with rfl | h
          · exact ⟨0, by simp, by simp, Or.inr rfl⟩
          · obtain ⟨t, h1, h2, hc⟩ := ih h
            exact ⟨t + 1, by simpa using h1, by simpa using h2, by simpa using hc⟩

/-- C1: for every call `find_latin_matching(left, right, n)` with
pairwise-distinct `left` and pairwise-distinct `right`, a successful
result has every element of `left` as first component of exactly 2 edges,
every element of `right` as second component of exactly 2 edges, and
`2 * len(left)` edges in total. -/
theorem latin_matching_degree_invariant (left right : List Nat) (n : Nat)
    (es : List (Nat × Nat)) (hl : left.Nodup) (hr : right.Nodup)
    (h : constraint_solver.find_latin_matching left right n = some es) :
    (∀ p ∈ left, (es.map Prod.fst).count p = 2) ∧
    (∀ q ∈ right, (es.map Prod.snd).count q = 2) ∧
    es.length = 2 * left.length := by
  obtain ⟨hlen, hcase⟩ := find_latin_matching_eq_some h
  rcases hcase with ⟨h0, rfl⟩ | hsearch
  · have hleft : left = [] := List.length_eq_zero.mp h0
    have hright : right = [] := by
      apply List.length_eq_zero.mp
      rw [← hlen]
      exact h0
    subst hleft; subst hright
    refine ⟨?_, ?_, rfl⟩ <;> intro x hx <;> simp at hx
  · obtain ⟨ps, hbt, rfl⟩ := latinSearch_eq_some hsearch
    obtain ⟨hlenps, hget, hnodup, hcomp, hcount⟩ := latin_assignment_facts hlen hbt
    refine ⟨?_, ?_, toEdges_length right left ps hlenps⟩
    · intro p hp
      rw [count_fst_toEdges right p left ps hlenps, List.count_eq_one_of_mem hl hp]
    · intro q hq
      obtain ⟨jq, hjq⟩ := List.mem_iff_get.mp hq
      rw [map_snd_toEdges right left ps hlenps, List.count_eq_countP,
        List.countP_map]
      have hcongr : ∀ j ∈ idxList ps,
          ((fun a => a == q) ∘ fun j => right.getD j 0) j = true ↔
          (fun j => j == jq.1) j = true := by
        intro j hjmem
        have hjbound : j < right.length := by
          have : ∃ pr ∈ ps, j = pr.1 ∨ j = pr.2 := by
            simpa [idxList] using hjmem
          obtain ⟨pr, hpr, hj⟩ := this
          rcases hj with rfl | rfl
          · exact (hcomp pr hpr).1
          · exact (hcomp pr hpr).2.1
        simp only [Function.comp_apply, beq_iff_eq]
        constructor
        · intro hval
          have hg : right.get ⟨j, hjbound⟩ = right.get jq := by
            rw [hjq, ← hval, List.getD_eq_getElem _ _ hjbound]
            rfl
          have := (List.Nodup.get_inj_iff hr).mp hg
          exact congrArg Fin.val this
        · intro hval
          rw [List.getD_eq_getElem _ _ hjbound, ← hjq]
          subst hval
          rfl
      rw [List.countP_congr hcongr, ← List.count_eq_countP]
      exact hcount jq.1 (by rw [hlen]; exact jq.2)

/-- Witness for `latin_matching_degree_invariant` at the spec's concrete
feasible scenario. -/
theorem latin_matching_degree_invariant_witness :
    (∀ p ∈ [2, 3, 5, 7],
        (([(2, 11), (2, 17), (3, 13), (3, 19), (5, 17), (5, 19), (7, 11),
           (7, 13)].map Prod.fst).count p = 2) ) ∧
    (∀ q ∈ [11, 13, 17, 19],
        (([(2, 11), (2, 17), (3, 13), (3, 19), (5, 17), (5, 19), (7, 11),
           (7, 13)].map Prod.snd).count q = 2) ) ∧
    ([(2, 11), (2, 17), (3, 13), (3, 19), (5, 17), (5, 19), (7, 11),
      (7, 13)] : List (Nat × Nat)).length = 2 * ([2, 3, 5, 7] : List Nat).length :=
  latin_matching_degree_invariant [2, 3, 5, 7] [11, 13, 17, 19] 100
    [(2, 11), (2, 17), (3, 13), (3, 19), (5, 17), (5, 19), (7, 11), (7, 13)]
    (by decide) (by decide) (by decide)

/-- C2: on success, the underlying assignment gives each left index an
unordered pair of right indices, and no two distinct left indices receive
the same unordered pair. -/
theorem latin_matching_latin_uniqueness (left right : List Nat) (n : Nat)
    (es : List (Nat × Nat))
    (h : constraint_solver.find_latin_matching left right n = some es) :
    ∃ ps : List (Nat × Nat),
      es = toEdges left right ps ∧ ps.length = left.length ∧
      ∀ (t t' : Nat) (ht : t < ps.length) (ht' : t' < ps.length), t ≠ t' →
        normPair (ps.get ⟨t, ht⟩) ≠ normPair (ps.get ⟨t', ht'⟩) := by
  obtain ⟨hlen, hcase⟩ := find_latin_matching_eq_some h
  rcases hcase with ⟨h0, rfl⟩ | hsearch
  · refine ⟨[], by simp [toEdges], by simp [h0], ?_⟩
    intro t t' ht
    simp at ht
  · obtain ⟨ps, hbt, rfl⟩ := latinSearch_eq_some hsearch
    obtain ⟨hlenps, hget, hnodup, hcomp, hcount⟩ := latin_assignment_facts hlen hbt
    refine ⟨ps, rfl, hlenps, ?_⟩
    intro t t' ht ht' hne
    have hpw := List.pairwise_iff_get.mp hnodup
    have hmt : t < (ps.map normPair).length := by simpa using ht
    have hmt' : t' < (ps.map normPair).length := by simpa using ht'
    have hgt : (ps.map normPair).get ⟨t, hmt⟩ = normPair (ps.get ⟨t, ht⟩) := by
      simp
    have hgt' : (ps.map normPair).get ⟨t', hmt'⟩ = normPair (ps.get ⟨t', ht'⟩) := by
      simp
    rcases Nat.lt_trichotomy t t' with hlt | heqq | hgtt
    · have := hpw ⟨t, hmt⟩ ⟨t', hmt'⟩ hlt
      rwa [hgt, hgt'] at this
    · exact absurd heqq hne
    · have := hpw ⟨t', hmt'⟩ ⟨t, hmt⟩ hgtt
      rw [hgt, hgt'] at this
      exact Ne.symm this

/-- Witness for `latin_matching_latin_uniqueness` at the concrete feasible
scenario. -/
theorem latin_matching_latin_uniqueness_witness :
    ∃ ps : List (Nat × Nat),
      [(2, 11), (2, 17), (3, 13), (3, 19), (5, 17), (5, 19), (7, 11), (7, 13)]
        = toEdges [2, 3, 5, 7] [11, 13, 17, 19] ps ∧
      ps.length = ([2, 3, 5, 7] : List Nat).length ∧
      ∀ (t t' : Nat) (ht : t < ps.length) (ht' : t' < ps.length), t ≠ t' →
        normPair (ps.get ⟨t, ht⟩) ≠ normPair (ps.get ⟨t', ht'⟩) :=
  latin_matching_latin_uniqueness [2, 3, 5, 7] [11, 13, 17, 19] 100
    [(2, 11), (2, 17), (3, 13), (3, 19), (5, 17), (5, 19), (7, 11), (7, 13)]
    (by decide)

/-- C3: every edge returned by a successful call has product at most the
bound. -/
theorem latin_matching_product_bound (left right : List Nat) (n : Nat)
    (es : List (Nat × Nat))
    (h : constraint_solver.find_latin_matching left right n = some es) :
    ∀ e ∈ es, e.1 * e.2 ≤ n := by
  obtain ⟨hlen, hcase⟩ := find_latin_matching_eq_some h
  rcases hcase with ⟨h0, rfl⟩ | hsearch
  · intro e he; simp at he
  · obtain ⟨ps, hbt, rfl⟩ := latinSearch_eq_some hsearch
    obtain ⟨hlenps, hget, hnodup, hcomp, hcount⟩ := latin_assignment_facts hlen hbt
    intro e he
    obtain ⟨t, h1, h2, hc⟩ := mem_toEdges he
    have hp := hget t h2
    have hleft_eq : left.getD t 0 = left.get ⟨t, h1⟩ :=
      List.getD_eq_getElem _ _ h1
    rcases hc with rfl | rfl
    · have := (mem_validNeighbors.mp (mem_pairsOf hp).1).2
      rw [hleft_eq] at this
      exact this
    · have := (mem_validNeighbors.mp (mem_pairsOf hp).2).2
      rw [hleft_eq] at this
      exact this

/-- Witness for `latin_matching_product_bound` at the concrete feasible
scenario, instantiated at the edge `(2, 11)` of the returned list. -/
theorem latin_matching_product_bound_witness :
    ((2, 11) : Nat × Nat).1 * ((2, 11) : Nat × Nat).2 ≤ 100 :=
  latin_matching_product_bound [2, 3, 5, 7] [11, 13, 17, 19] 100
    [(2, 11), (2, 17), (3, 13), (3, 19), (5, 17), (5, 19), (7, 11), (7, 13)]
    (by decide) (2, 11) (by decide)

theorem count_idxList_eq_countP (j : Nat) :
    ∀ ps : List (Nat × Nat), (∀ pr ∈ ps, pr.1 ≠ pr.2) →
      (idxList ps).count j = ps.countP (fun pr => j == pr.1 || j == pr.2) := by
  intro ps
  induction ps with
  | nil => intro h; simp [idxList]
  | cons pr ps ih =>
      intro h
      have hne : pr.1 ≠ pr.2 := h pr (List.mem_cons_self pr ps)
      have hsplit : idxList (pr :: ps) = pr.1 :: pr.2 :: idxList ps := by
        simp [idxList]
      rw [hsplit, List.count_cons, List.count_cons,
        ih (fun q hq => h q (List.mem_cons_of_mem pr hq)), List.countP_cons]
      simp only [beq_iff_eq, Bool.or_eq_true]
      split_ifs <;> simp_all <;> omega

theorem one_le_countP_exists {α : Type} (P : α → Bool) :
    ∀ l : List α, 1 ≤ l.countP P →
      ∃ (t : Nat) (h : t < l.length), P (l.get ⟨t, h⟩) = true := by
  intro l
  induction l with
  | nil => intro h; rw [List.countP_nil] at h; omega
  | cons a l ih =>
      intro h
      by_cases ha : P a = true
      · exact ⟨0, by simp, ha⟩
      · rw [List.countP_cons, if_neg (by simpa using ha)] at h
        obtain ⟨t, ht, hPt⟩ := ih (by omega)
        exact ⟨t + 1, by simpa using ht, hPt⟩

theorem two_le_countP_exists {α : Type} (P : α → Bool) :
    ∀ l : List α, 2 ≤ l.countP P →
      ∃ (t t' : Nat) (h : t < l.length) (h' : t' < l.length),
        t ≠ t' ∧ P (l.get ⟨t, h⟩) = true ∧ P (l.get ⟨t', h'⟩) = true := by
  intro l
  induction l with
  | nil => intro h; rw [List.countP_nil] at h; omega
  | cons a l ih =>
      intro h
      rw [List.countP_cons] at h
      by_cases ha : P a = true
      · rw [if_pos (by simpa using ha)] at h
        have h1 : 1 ≤ l.countP P := by omega
        obtain ⟨t, ht, hPt⟩ := one_le_countP_exists P l h1
        exact ⟨0, t + 1, by simp, by simpa using ht, by omega, ha, hPt⟩
      · rw [if_neg (by simpa using ha)] at h
        obtain ⟨t, t', ht, ht', hne, hPt, hPt'⟩ := ih (by omega)
        exact ⟨t + 1, t' + 1, by simpa using ht, by simpa using ht',
          by omega, hPt, hPt'⟩

theorem two_mem_length {α : Type} {a b : α} {l : List α} (hne : a ≠ b)
    (ha : a ∈ l) (hb : b ∈ l) : 2 ≤ l.length := by
  cases l with
  | nil => simp at ha
  | cons x l =>
      cases l with
      | nil =>
          simp at ha hb
          exact absurd (ha.trans hb.symm) hne
      | cons y l =>
          simp only [List.length_cons]
          omega

/-- C4: when the input lengths agree, a vertex (on either side) with fewer
than two partners within the bound forces failure: a left vertex trips the
explicit pre-search check, and a right vertex with fewer than two partners
can never reach degree 2, so the final check of the backtracking rejects
every branch. -/
theorem latin_matching_insufficient_degree_fails (left right : List Nat)
    (n : Nat) (hlen : left.length = right.length)
    (h : (∃ i, i < left.length ∧
            (validNeighbors (left.getD i 0) right n).length < 2) ∨
         (∃ j, j < right.length ∧ (leftPartners left right n j).length < 2)) :
    constraint_solver.find_latin_matching left right n = none := by
  cases hres : constraint_solver.find_latin_matching left right n with
  | none => rfl
  | some es =>
      exfalso
      obtain ⟨hlen', hcase⟩ := find_latin_matching_eq_some hres
      rcases hcase with ⟨h0, _⟩ | hsearch
      · rcases h with ⟨i, hi, _⟩ | ⟨j, hj, _⟩
        · omega
        · rw [← hlen] at hj; omega
      · obtain ⟨ps, hbt, rfl⟩ := latinSearch_eq_some hsearch
        obtain ⟨hlenps, hget, hnodup, hcomp, hcount⟩ :=
          latin_assignment_facts hlen hbt
        rcases h with ⟨i, hi, hvi⟩ | ⟨j, hj, hvj⟩
        · -- the pre-search candidate check in latinSearch passed, so
          -- every left vertex has at least 2 candidates
          unfold latinSearch at hsearch
          by_cases hall : (left.map (fun p => validNeighbors p right n)).all
              (fun v => 2 ≤ v.length) = true
          · have hmem : validNeighbors (left.getD i 0) right n
                ∈ left.map (fun p => validNeighbors p right n) := by
              rw [← valid_getD hi]
              have hi' : i < (left.map (fun p => validNeighbors p right n)).length := by
                simpa using hi
              rw [List.getD_eq_getElem _ _ hi']
              exact List.getElem_mem hi'
            have := List.all_eq_true.mp hall _ hmem
            simp only [decide_eq_true_eq] at this
            omega
          · rw [if_neg hall] at hsearch; simp at hsearch
        · have hjleft : j < left.length := by omega
          have hc := hcount j hjleft
          have hnecomp : ∀ pr ∈ ps, pr.1 ≠ pr.2 := by
            intro pr hpr
            exact Nat.ne_of_lt (hcomp pr hpr).2.2
          rw [count_idxList_eq_countP j ps hnecomp] at hc
          obtain ⟨t, t', ht, ht', htne, hPt, hPt'⟩ :=
            two_le_countP_exists (fun pr => j == pr.1 || j == pr.2) ps
              (by omega)
          have hpartner : ∀ (t0 : Nat) (ht0 : t0 < ps.length),
              (j == (ps.get ⟨t0, ht0⟩).1 || j == (ps.get ⟨t0, ht0⟩).2) = true →
              t0 ∈ leftPartners left right n j := by
            intro t0 ht0 hP
            have hp := hget t0 ht0
            have ht0l : t0 < left.length := hlenps ▸ ht0
            have hjmem : j ∈ validNeighbors (left.getD t0 0) right n := by
              simp only [Bool.or_eq_true, beq_iff_eq] at hP
              rcases hP with rfl | rfl
              · exact (mem_pairsOf hp).1
              · exact (mem_pairsOf hp).2
            have hprod := (mem_validNeighbors.mp hjmem).2
            unfold leftPartners
            rw [List.mem_filter]
            exact ⟨List.mem_range.mpr ht0l, by simpa using hprod⟩
          exact absurd
            (two_mem_length htne (hpartner t ht hPt) (hpartner t' ht' hPt'))
            (by omega)

/-- Witness for `latin_matching_insufficient_degree_fails` at the spec's
concrete infeasible scenario (every vertex has 0 candidates at bound 50). -/
theorem latin_matching_insufficient_degree_fails_witness :
    constraint_solver.find_latin_matching [2, 3] [89, 97] 50 = none :=
  latin_matching_insufficient_degree_fails [2, 3] [89, 97] 50 (by decide)
    (Or.inl ⟨0, by decide, by decide⟩)

/-- C5 counterexample: the value returned on a length mismatch is `none`,
and the value returned when the exhaustive search finds no assignment
(here on an input that passes the candidate pre-check: both left vertices
have 2 candidates) is the very same `none`, so the return value does not
distinguish the failure kinds. -/
theorem latin_matching_failure_values_indistinguishable :
    constraint_solver.find_latin_matching [2, 3] [97] 1000 = none ∧
    constraint_solver.find_latin_matching [2, 3] [5, 7] 1000 = none ∧
    (validNeighbors 2 [5, 7] 1000).length = 2 ∧
    (validNeighbors 3 [5, 7] 1000).length = 2 := by decide

/-- C5 amended: the Python code signals every failure with the same value
`None`; in particular a size mismatch returns `None`, equal to the value
returned on an exhausted search. -/
theorem latin_matching_all_failures_return_none (left right : List Nat)
    (n : Nat) (h : left.length ≠ right.length) :
    constraint_solver.find_latin_matching left right n = none := by
  unfold constraint_solver.find_latin_matching
  rw [if_pos h]

/-- Witness for `latin_matching_all_failures_return_none`. -/
theorem latin_matching_all_failures_return_none_witness :
    constraint_solver.find_latin_matching [2, 3] [97] 1000 = none :=
  latin_matching_all_failures_return_none [2, 3] [97] 1000 (by decide)

/-- C6: the embedded function is pure, hence deterministic, and for every
left vertex the candidate pairs are enumerated with `j1 < j2` in ascending
lexicographic order of `(j1, j2)`. -/
theorem latin_matching_deterministic_and_ordered (left right : List Nat)
    (n p : Nat) :
    constraint_solver.find_latin_matching left right n
      = constraint_solver.find_latin_matching left right n ∧
    (∀ pr ∈ pairsOf (validNeighbors p right n), pr.1 < pr.2) ∧
    (pairsOf (validNeighbors p right n)).Pairwise pairLex :=
  ⟨rfl, fun pr hpr => mem_pairsOf_lt (validNeighbors_pairwise p right n) hpr,
    pairsOf_pairwise (validNeighbors_pairwise p right n)⟩

/-- Right-neighbor list of a left vertex in an edge list (used to state the
Latin property of a concrete edge set). -/
def neighborsOf (es : List (Nat × Nat)) (p : Nat) : List Nat :=
  (es.filter (fun e => e.1 == p)).map Prod.snd

namespace erdos983_lib

/-- The verified manual edge set `MANUAL_CONSTRUCTIONS[100]`
(`erdos983_lib.py` lines 284-292). -/
def manualConstruction100 : List (Nat × Nat) :=
  [(2, 13), (2, 19), (3, 11), (3, 17), (5, 17), (5, 19), (7, 11), (7, 13)]

end erdos983_lib

/-- C7: at `left = [2,3,5,7]`, `right = [11,13,17,19]`, `bound = 100` the
search succeeds, and the manual edge set from the source satisfies the
degree-2, product-bound and Latin-uniqueness properties. -/
theorem latin_matching_concrete_success_100 :
    (constraint_solver.find_latin_matching [2, 3, 5, 7] [11, 13, 17, 19]
        100).isSome = true ∧
    (∀ p ∈ [2, 3, 5, 7],
        (erdos983_lib.manualConstruction100.map Prod.fst).count p = 2) ∧
    (∀ q ∈ [11, 13, 17, 19],
        (erdos983_lib.manualConstruction100.map Prod.snd).count q = 2) ∧
    (∀ e ∈ erdos983_lib.manualConstruction100, e.1 * e.2 ≤ 100) ∧
    List.Pairwise
      (fun p p' => (neighborsOf erdos983_lib.manualConstruction100 p : Multiset Nat)
        ≠ (neighborsOf erdos983_lib.manualConstruction100 p' : Multiset Nat))
      [2, 3, 5, 7] := by decide

/-- C9: on the spec's domain (equal lengths, at least 2) the two source
variants agree exactly: their guards differ only outside this domain and
their bodies are the same search. -/
theorem find_latin_matching_implementations_agree (left right : List Nat)
    (n : Nat) (hlen : left.length = right.length) (hk : 2 ≤ left.length) :
    constraint_solver.find_latin_matching left right n
      = erdos983_lib.find_latin_matching left right n := by
  unfold constraint_solver.find_latin_matching erdos983_lib.find_latin_matching
  rw [if_neg (by omega : ¬left.length ≠ right.length),
    if_neg (by omega : ¬left.length = 0),
    if_neg (by
      push_neg
      exact ⟨hlen, by omega⟩)]

/-- Witness for `find_latin_matching_implementations_agree` at the concrete
feasible scenario. -/
theorem find_latin_matching_implementations_agree_witness :
    constraint_solver.find_latin_matching [2, 3, 5, 7] [11, 13, 17, 19] 100
      = erdos983_lib.find_latin_matching [2, 3, 5, 7] [11, 13, 17, 19] 100 :=
  find_latin_matching_implementations_agree [2, 3, 5, 7] [11, 13, 17, 19] 100
    (by decide) (by decide)

/-- C10: the `constraint_solver.py` variant returns the empty edge list
(success) on the empty input, for every bound. -/
theorem latin_matching_empty_input_succeeds (n : Nat) :
    constraint_solver.find_latin_matching [] [] n = some [] := rfl

theorem stripAllFuel_pos (p : Nat) :
    ∀ fuel temp : Nat, 0 < temp → 0 < stripAllFuel p fuel temp := by
  intro fuel
  induction fuel with
  | zero => intro temp h; simpa [stripAllFuel] using h
  | succ fuel ih =>
      intro temp h
      rw [stripAllFuel]
      by_cases hc : 1 < p ∧ temp % p = 0 ∧ 0 < temp
      · rw [if_pos hc]
        have hdvd : p ∣ temp := Nat.dvd_of_mod_eq_zero hc.2.1
        exact ih _ (Nat.div_pos (Nat.le_of_dvd h hdvd) (by omega))
      · rw [if_neg hc]; exact h

theorem stripAllFuel_dvd (p : Nat) :
    ∀ fuel temp : Nat, stripAllFuel p fuel temp ∣ temp := by
  intro fuel
  induction fuel with
  | zero => intro temp; simp [stripAllFuel]
  | succ fuel ih =>
      intro temp
      rw [stripAllFuel]
      by_cases hc : 1 < p ∧ temp % p = 0 ∧ 0 < temp
      · rw [if_pos hc]
        exact (ih (temp / p)).trans
          (Nat.div_dvd_of_dvd (Nat.dvd_of_mod_eq_zero hc.2.1))
      · rw [if_neg hc]

theorem stripAllFuel_not_dvd (p : Nat) (hp : 1 < p) :
    ∀ fuel temp : Nat, temp ≤ fuel → 0 < temp →
      ¬ p ∣ stripAllFuel p fuel temp := by
  intro fuel
  induction fuel with
  | zero => intro temp hle hpos; omega
  | succ fuel ih =>
      intro temp hle hpos
      rw [stripAllFuel]
      by_cases hc : 1 < p ∧ temp % p = 0 ∧ 0 < temp
      · rw [if_pos hc]
        have hdvd : p ∣ temp := Nat.dvd_of_mod_eq_zero hc.2.1
        have hlt : temp / p < temp := Nat.div_lt_self hpos hp
        exact ih _ (by omega)
          (Nat.div_pos (Nat.le_of_dvd hpos hdvd) (by omega))
      · rw [if_neg hc]
        intro hdvd
        exact hc ⟨hp, Nat.dvd_iff_mod_eq_zero.mp hdvd, hpos⟩

theorem stripAllFuel_primeFactors (p : Nat) (hp : Nat.Prime p) :
    ∀ fuel temp : Nat, temp ≤ fuel → 0 < temp →
      insert p (stripAllFuel p fuel temp).primeFactors
        = insert p temp.primeFactors := by
  intro fuel
  induction fuel with
  | zero => intro temp hle hpos; rw [stripAllFuel]
  | succ fuel ih =>
      intro temp hle hpos
      rw [stripAllFuel]
      by_cases hc : 1 < p ∧ temp % p = 0 ∧ 0 < temp
      · rw [if_pos hc]
        have hdvd : p ∣ temp := Nat.dvd_of_mod_eq_zero hc.2.1
        have hlt : temp / p < temp := Nat.div_lt_self hpos hc.1
        have hqpos : 0 < temp / p :=
          Nat.div_pos (Nat.le_of_dvd hpos hdvd) (by omega)
        rw [ih _ (by omega) hqpos]
        have hsplit : temp = p * (temp / p) := (Nat.mul_div_cancel' hdvd).symm
        have hrw : temp.primeFactors = {p} ∪ (temp / p).primeFactors := by
          conv =>
            lhs
            rw [hsplit]
          rw [Nat.primeFactors_mul (by omega : p ≠ 0) (by omega : temp / p ≠ 0),
            Nat.Prime.primeFactors hp]
        rw [hrw]
        ext x
        simp
      · rw [if_neg hc]

theorem stripAll_pos {p temp : Nat} (h : 0 < temp) : 0 < stripAll p temp :=
  stripAllFuel_pos p temp temp h

theorem stripAll_dvd (p temp : Nat) : stripAll p temp ∣ temp :=
  stripAllFuel_dvd p temp temp

theorem stripAll_not_dvd {p temp : Nat} (hp : 1 < p) (h : 0 < temp) :
    ¬ p ∣ stripAll p temp :=
  stripAllFuel_not_dvd p hp temp temp (Nat.le_refl temp) h

theorem primeFactors_stripAll {p temp : Nat} (hp : Nat.Prime p)
    (h : 0 < temp) (hdvd : p ∣ temp) :
    temp.primeFactors = insert p (stripAll p temp).primeFactors := by
  have h1 := stripAllFuel_primeFactors p hp temp temp (Nat.le_refl temp) h
  have hmem : p ∈ temp.primeFactors :=
    Nat.mem_primeFactors.mpr ⟨hp, hdvd, by omega⟩
  rw [← Finset.insert_eq_self.mpr hmem]
  exact h1.symm

/-- On exit from the trial-division loop, a remaining cofactor that has no
prime divisor `q` with `q * q ≤` itself in scope is 1 or prime, and in
either case contributes its own prime-factor set. -/
theorem cofactor_step {acc : List Nat} {temp : Nat} (hpos : 0 < temp)
    (hnone : ∀ q, Nat.Prime q → q ∣ temp → q * q ≤ temp → False) :
    (if 1 < temp then insert temp acc.toFinset else acc.toFinset)
      = acc.toFinset ∪ temp.primeFactors := by
  by_cases h1 : 1 < temp
  · have hprime : temp.Prime := by
      by_contra hnp
      have hmf := Nat.minFac_prime (by omega : temp ≠ 1)
      have hsq : temp.minFac * temp.minFac ≤ temp := by
        have := Nat.minFac_sq_le_self hpos hnp
        nlinarith [this]
      exact hnone _ hmf (Nat.minFac_dvd temp) hsq
    rw [if_pos h1, Nat.Prime.primeFactors hprime]
    ext x
    simp
    tauto
  · have : temp = 1 := by omega
    subst this
    rw [if_neg h1]
    simp

theorem factorsAux_sound :
    ∀ (rest acc : List Nat) (temp : Nat), 0 < temp →
      (∀ p ∈ rest, Nat.Prime p) → List.Pairwise (· < ·) rest →
      (∀ q, Nat.Prime q → q ∣ temp → q * q ≤ temp → q ∈ rest) →
      (if 1 < (factorsAux acc temp rest).2 then
          insert (factorsAux acc temp rest).2 (factorsAux acc temp rest).1.toFinset
        else (factorsAux acc temp rest).1.toFinset)
        = acc.toFinset ∪ temp.primeFactors := by
  intro rest
  induction rest with
  | nil =>
      intro acc temp hpos hprime hsort hcomp
      rw [factorsAux]
      exact cofactor_step hpos
        (fun q hq hdvd hsq => List.not_mem_nil q (hcomp q hq hdvd hsq))
  | cons p rest ih =>
      intro acc temp hpos hprime hsort hcomp
      have hp : Nat.Prime p := hprime p (List.mem_cons_self p rest)
      have hp1 : 1 < p := hp.one_lt
      rw [factorsAux]
      by_cases hbreak : temp < p * p
      · rw [if_pos hbreak]
        refine cofactor_step hpos ?_
        intro q hq hdvd hsq
        have hq_mem := hcomp q hq hdvd hsq
        have hpq : p ≤ q := by
          rcases List.mem_cons.mp hq_mem with rfl | hq_rest
          · exact Nat.le_refl q
          · exact Nat.le_of_lt ((List.pairwise_cons.mp hsort).1 q hq_rest)
        nlinarith [hsq, hbreak, hpq]
      · rw [if_neg hbreak]
        by_cases hdvd : temp % p = 0
        · rw [if_pos hdvd]
          have hpdvd : p ∣ temp := Nat.dvd_of_mod_eq_zero hdvd
          have hspos : 0 < stripAll p temp := stripAll_pos hpos
          have hsdvd : stripAll p temp ∣ temp := stripAll_dvd p temp
          have hrec := ih (acc ++ [p]) (stripAll p temp) hspos
            (fun q hq => hprime q (List.mem_cons_of_mem p hq))
            (List.pairwise_cons.mp hsort).2 ?_
          · rw [hrec, primeFactors_stripAll hp hpos hpdvd]
            ext x
            simp
            tauto
          · intro q hq hqdvd hqsq
            have hqtemp : q ∣ temp := hqdvd.trans hsdvd
            have hle : stripAll p temp ≤ temp := Nat.le_of_dvd hpos hsdvd
            have hq_mem := hcomp q hq hqtemp (by omega)
            rcases List.mem_cons.mp hq_mem with rfl | hq_rest
            · exact absurd hqdvd (stripAll_not_dvd hp1 hpos)
            · exact hq_rest
        · rw [if_neg hdvd]
          refine ih acc temp hpos
            (fun q hq => hprime q (List.mem_cons_of_mem p hq))
            (List.pairwise_cons.mp hsort).2 ?_
          intro q hq hqdvd hqsq
          have hq_mem := hcomp q hq hqdvd hqsq
          rcases List.mem_cons.mp hq_mem with rfl | hq_rest
          · exact absurd (Nat.dvd_iff_mod_eq_zero.mp hqdvd) hdvd
          · exact hq_rest

/-- C8 counterexample: `[3, 2]` is a list of primes that contains every
prime `q` with `q * q ≤ 6` (only `q = 2` qualifies), yet the function
returns `{6}` instead of the prime divisors `{2, 3}` of 6: the break
condition `p * p > temp` fires on the out-of-order head 3 before 2 is
ever tried. -/
theorem prime_factorization_unsorted_counterexample :
    (∀ q : Nat, Nat.Prime q → q * q ≤ 6 → q ∈ [3, 2]) ∧
    erdos983_lib.prime_factorization 6 [3, 2] = {6} ∧
    Nat.primeFactors 6 = {2, 3} ∧
    erdos983_lib.prime_factorization 6 [3, 2] ≠ Nat.primeFactors 6 := by
  have h6 : Nat.primeFactors 6 = {2, 3} := by
    rw [show (6 : Nat) = 2 * 3 from rfl,
      Nat.primeFactors_mul (by omega) (by omega),
      Nat.Prime.primeFactors (by norm_num), Nat.Prime.primeFactors (by norm_num)]
    decide
  have hval : erdos983_lib.prime_factorization 6 [3, 2] = {6} := by decide
  refine ⟨?_, hval, h6, ?_⟩
  · intro q hq hsq
    have h2 : 2 ≤ q := hq.two_le
    have h3 : q ≤ 2 := by nlinarith
    have : q = 2 := by omega
    subst this
    decide
  · rw [hval, h6]
    decide

/-- C8 amended: `prime_factorization` (= `factors` of
`constraint_solver.py`) returns the empty set for `m ≤ 1`, and when
`primes` is a strictly ascending list of primes containing every prime `q`
with `q * q ≤ m` it returns exactly the set of distinct prime divisors of
`m` for every `m ≥ 2` (the order hypothesis is necessary: see the
counterexample). -/
theorem prime_factorization_correct (m : Nat) (primes : List Nat)
    (h1 : ∀ p ∈ primes, Nat.Prime p)
    (h2 : List.Pairwise (· < ·) primes)
    (h3 : ∀ q, Nat.Prime q → q * q ≤ m → q ∈ primes) :
    (m ≤ 1 → erdos983_lib.prime_factorization m primes = ∅) ∧
    (2 ≤ m → erdos983_lib.prime_factorization m primes = m.primeFactors) := by
  constructor
  · intro hm
    unfold erdos983_lib.prime_factorization
    rw [if_pos hm]
  · intro hm
    unfold erdos983_lib.prime_factorization
    rw [if_neg (by omega : ¬ m ≤ 1)]
    have hsound := factorsAux_sound primes [] m (by omega) h1 h2
      (fun q hq _ hsq => h3 q hq hsq)
    rw [List.toFinset_nil, Finset.empty_union] at hsound
    cases hfa : factorsAux [] m primes with
    | mk f temp =>
        rw [hfa] at hsound
        simp only at hsound
        show (if 1 < temp then (f ++ [temp]).toFinset else f.toFinset)
          = m.primeFactors
        by_cases ht : 1 < temp
        · rw [if_pos ht] at hsound ⊢
          rw [← hsound]
          ext x
          simp
          tauto
        · rw [if_neg ht] at hsound ⊢
          exact hsound

/-- Witness for `prime_factorization_correct` at `m = 12`,
`primes = [2, 3]`. -/
theorem prime_factorization_correct_witness :
    (12 ≤ 1 → erdos983_lib.prime_factorization 12 [2, 3] = ∅) ∧
    (2 ≤ 12 → erdos983_lib.prime_factorization 12 [2, 3] = Nat.primeFactors 12) :=
  prime_factorization_correct 12 [2, 3] (by decide) (by decide)
    (by
      intro q hq hsq
      have h2 : 2 ≤ q := hq.two_le
      have h3 : q ≤ 3 := by nlinarith
      interval_cases q
      · decide
      · decide)

